import Mathlib

/-!
Shallow embedding of the az-tui repository's record-normalization,
filtering, column-width allocation, text-wrapping and interactive-loop
logic, together with theorems settling the specification claims.

JavaScript values that flow through the normalizer/formatter/filter are
modelled by the inductive `JSValue` (null and undefined are both `vnull`;
person objects carry the three identity sub-properties the code reads).
JavaScript string primitives (split, trim, toLowerCase, join) are
re-implemented structurally over `List Char` so that all definitions
evaluate by kernel reduction.
-/

namespace AzTui

/-- Model of the JavaScript values stored in a record field: `null` or
`undefined`, a string, a number (the code only ever meets integers),
an array of strings, or an identity object with the three sub-properties
read by `normalizeFieldValue` (`displayName`, `uniqueName`, `mailAddress`). -/
inductive JSValue where
  | vnull : JSValue
  | vstr (s : String) : JSValue
  | vnum (n : Int) : JSValue
  | varr (xs : List String) : JSValue
  | vobj (displayName uniqueName mailAddress : Option String) : JSValue
deriving DecidableEq, Repr

/-- JavaScript `String.prototype.split` with a single-character separator:
splits on every occurrence, keeping empty segments. -/
def splitOnCharAux (sep : Char) : List Char → List Char → List (List Char)
  | [], acc => [acc.reverse]
  | c :: cs, acc =>
    if c = sep then acc.reverse :: splitOnCharAux sep cs []
    else splitOnCharAux sep cs (c :: acc)

/-- `s.split(sep)` for a one-character separator string. -/
def jsSplitChar (s : String) (sep : Char) : List String :=
  (splitOnCharAux sep s.data []).map String.mk

/-- JavaScript `Array.prototype.join(sep)`. -/
def jsJoin (sep : String) (xs : List String) : String :=
  String.mk (List.intercalate sep.data (xs.map String.data))

/-- JavaScript `String.prototype.trim`: strips whitespace from both ends. -/
def jsTrim (s : String) : String :=
  String.mk (((s.data.dropWhile Char.isWhitespace).reverse.dropWhile Char.isWhitespace).reverse)

/-- JavaScript `String.prototype.toLowerCase` (ASCII, via `Char.toLower`). -/
def jsToLower (s : String) : String := String.mk (s.data.map Char.toLower)

/-- JavaScript `String(v)` coercion for the modelled values:
`String(null) = "null"`, arrays join with `","`, plain objects print as
`"[object Object]"`. -/
def jsToString : JSValue → String
  | .vnull => "null"
  | .vstr s => s
  | .vnum n => toString n
  | .varr xs => jsJoin "," xs
  | .vobj _ _ _ => "[object Object]"

/-- JavaScript falsiness of a `JSValue` (`null`/`undefined`, `""`, `0`). -/
def jsFalsy : JSValue → Bool
  | .vnull => true
  | .vstr s => s = ""
  | .vnum n => n = 0
  | .varr _ => false
  | .vobj _ _ _ => false

/-- The JavaScript chain `v || next` on an optional string property:
falls through when the property is absent (`undefined`) or empty (falsy). -/
def jsOrFalsyStr (v : Option String) (next : String) : String :=
  match v with
  | some s => if s = "" then next else s
  | none => next

/-- A board work item as built by `fetchTaskDetails` in board-tasks:
an id plus a map from field name to (already normalized) field value,
modelled as an association list. -/
structure WorkItem where
  id : Int
  fields : List (String × JSValue)
deriving DecidableEq, Repr

/-- `getField(task, name)` from board-tasks: `task.fields?.[name]`. -/
def getField (t : WorkItem) (name : String) : Option JSValue :=
  (t.fields.find? (fun kv => kv.1 == name)).map (fun kv => kv.2)

/-- `normalizeFieldValue(field, value)` from board-tasks (part_003 lines
218-226): `null`/`undefined` becomes `"-"`; `System.AssignedTo` keeps a
string, extracts `displayName || uniqueName || mailAddress || "-"` from an
object, and degrades anything else to `"-"` (a number or array has none of
those properties); other fields join arrays with `", "` and pass every
remaining value through unchanged. -/
def normalizeFieldValue (field : String) (value : JSValue) : JSValue :=
  match value with
  | .vnull => .vstr "-"
  | v =>
    if field = "System.AssignedTo" then
      match v with
      | .vstr s => .vstr s
      | .vobj d u m => .vstr (jsOrFalsyStr d (jsOrFalsyStr u (jsOrFalsyStr m "-")))
      | _ => .vstr "-"
    else
      match v with
      | .varr xs => .vstr (jsJoin ", " xs)
      | v2 => v2

/-- `formatField(field, value)` from board-tasks (part_003 lines 312-323):
`null`/`undefined`/`"-"` render as `"-"`; `System.IterationPath` keeps only
the last nonempty backslash-separated segment (trimmed), falling back to
the whole string; a string-valued `System.Tags` is split on `";"`, joined
with `", "` and the result trimmed as a whole; everything else is
stringified. -/
def formatField (field : String) (value : JSValue) : String :=
  if value = .vnull ∨ value = .vstr "-" then "-"
  else if field = "System.IterationPath" then
    let s := jsToString value
    let parts := ((jsSplitChar s '\\').map jsTrim).filter (fun p => p ≠ "")
    match parts.getLast? with
    | some p => p
    | none => s
  else if field = "System.Tags" then
    match value with
    | .vstr s => jsTrim (jsJoin ", " (jsSplitChar s ';'))
    | v => jsToString v
  else jsToString value

/-- The string `filterByField` actually matches against:
`String(getField(t, field) || "")` — a missing or falsy stored value reads
as the empty string, everything else is stringified. -/
def filterString (field : String) (t : WorkItem) : String :=
  match getField t field with
  | none => ""
  | some v => if jsFalsy v then "" else jsToString v

/-- `filterByField(tasks, field, regex)` from board-tasks (part_003 lines
339-342): a null or empty field, or a null regex, returns the input
unchanged; otherwise keeps the tasks whose `filterString` the compiled
pattern accepts. A compiled case-insensitive pattern is modelled by its
`test` function `String → Bool`. -/
def filterByField (tasks : List WorkItem) (field : Option String)
    (regex : Option (String → Bool)) : List WorkItem :=
  match field, regex with
  | some f, some p => if f = "" then tasks else tasks.filter (fun t => p (filterString f t))
  | _, _ => tasks

/-- The cell string the table renderer shows for one field of one task
(`printTasks`, part_003 lines 438-445): the id column is `chalk.bold(value)`
(a bare string coercion), every other column goes through `formatField`;
color codes are ignored. -/
def displayString (field : String) (t : WorkItem) : String :=
  match getField t field with
  | none => if field = "System.Id" then "undefined" else "-"
  | some v => if field = "System.Id" then jsToString v else formatField field v

/-- Modelled from the spec: the filter §4.4 describes, matching the pattern
against the normalized *display* string of the field — "normalization per
§4.2 is applied before matching, so filters see what the user sees". -/
def specFilterByDisplay (tasks : List WorkItem) (field : String)
    (p : String → Bool) : List WorkItem :=
  tasks.filter (fun t => p (displayString field t))

/-- Does `pat` occur as a contiguous run inside the second list? -/
def containsRun (pat : List Char) : List Char → Bool
  | [] => pat.isEmpty
  | c :: rest => List.isPrefixOf pat (c :: rest) || containsRun pat rest

/-- Case-insensitive substring test: the simplest valid case-insensitive
pattern, used to instantiate concrete filters. -/
def ciTest (pat s : String) : Bool :=
  containsRun (jsToLower pat).data (jsToLower s).data

/-- JavaScript `text.split(/\s+/)`: splits on runs of whitespace; a leading
or trailing run contributes an empty first or last token. The Boolean flag
records whether we are inside a whitespace run that has already flushed a
token. -/
def splitWSGo : Bool → List Char → List Char → List String
  | _, [], acc => [String.mk acc.reverse]
  | skipping, c :: cs, acc =>
    if c.isWhitespace then
      if skipping then splitWSGo true cs []
      else String.mk acc.reverse :: splitWSGo true cs []
    else splitWSGo false cs (c :: acc)

/-- `text.split(/\s+/)` as used by `wrapText`. -/
def splitWS (text : String) : List String := splitWSGo false text.data []

/-- The word-accumulation loop of `wrapText` (part_000 lines 18-27): words
join the current line while `current.length + needsSpace + word.length`
stays within `width`; on overflow the nonempty current line is flushed and
the word starts the next line; the final nonempty line is flushed at the
end. -/
def wrapLoop (width : Nat) (lines : List String) (current : String) :
    List String → List String
  | [] => if current = "" then lines else lines ++ [current]
  | word :: rest =>
    let needsSpace := if current.length > 0 then 1 else 0
    if current.length + needsSpace + word.length > width then
      wrapLoop width (if current = "" then lines else lines ++ [current]) word rest
    else
      wrapLoop width lines (if current = "" then word else current ++ " " ++ word) rest

/-- The list of lines `wrapText` produces for nonempty input. -/
def wrapLines (text : String) (width : Nat) : List String :=
  wrapLoop width [] "" (splitWS text)

/-- `wrapText(text, width)` from part_000 lines 12-29: empty input renders
as the placeholder `"-"`, otherwise the greedy word-wrapped lines are
joined with newlines. -/
def wrapText (text : String) (width : Nat) : String :=
  if text = "" then "-" else jsJoin "\n" (wrapLines text width)

/-- JavaScript `s.replace(pat, repl)` with a string pattern: replaces only
the first occurrence (`pat` nonempty at the call site). -/
def replaceFirstAux (pat repl : List Char) : List Char → List Char
  | [] => []
  | c :: cs =>
    if List.isPrefixOf pat (c :: cs) then repl ++ (c :: cs).drop pat.length
    else c :: replaceFirstAux pat repl cs

/-- `name.replace("refs/heads/", "")` and friends. -/
def replaceFirst (s pat repl : String) : String :=
  String.mk (replaceFirstAux pat.data repl.data s.data)

/-- The slicing loop of `formatBranch` (part_000 lines 36-39): walks the
characters keeping the reversed current slice and its remaining capacity;
when capacity runs out the slice is flushed and a fresh one starts. For
`width ≥ 1` this produces exactly the `branch.slice(i, i + width)` pieces
of the JavaScript `for` loop (whose `width = 0` case would not terminate
and is out of scope). -/
def chunkGo (width : Nat) : List Char → List Char → Nat → List (List Char)
  | [], cur, _ => if cur = [] then [] else [cur.reverse]
  | c :: cs, cur, k =>
    match k with
    | 0 => cur.reverse :: chunkGo width cs [c] (width - 1)
    | k2 + 1 => chunkGo width cs (c :: cur) k2

/-- `formatBranch(name, width)` from part_000 lines 32-41: strips the first
occurrence of `"refs/heads/"`, renders an empty result as `"-"`, and
otherwise joins the fixed-width slices with newlines. -/
def formatBranch (name : String) (width : Nat) : String :=
  let branch := replaceFirst name "refs/heads/" ""
  if branch = "" then "-"
  else jsJoin "\n" ((chunkGo width branch.data [] width).map String.mk)

/-- One reviewer on a pull request; a non-numeric `vote` is `none` (the
code filters votes with `typeof v === "number"`). -/
structure Reviewer where
  vote : Option Int
deriving DecidableEq, Repr

/-- A pull request as consumed by `getApprovalStatus`: only the reviewer
list matters (it may be absent, `pr.reviewers?`). -/
structure PullReq where
  reviewers : Option (List Reviewer)
deriving DecidableEq, Repr

/-- The numeric votes `getApprovalStatus` extracts:
`pr.reviewers?.map(r => r.vote).filter(v => typeof v === "number") || []`. -/
def prVotes (pr : PullReq) : List Int :=
  (pr.reviewers.getD []).filterMap (fun r => r.vote)

/-- `getApprovalStatus(pr)` from part_000 lines 3-9 (the chalk color
wrappers only add ANSI codes around these literals and are dropped). -/
def getApprovalStatus (pr : PullReq) : String :=
  if (prVotes pr).any (fun v => v < 0) then "Rejected"
  else if (prVotes pr).any (fun v => v ≥ 5) then "Approved"
  else "Pending"

/-- The `weights` table of `computeColWidths` (part_003 lines 452-461) with
the `|| defaultWeight` fallback; the decimal literals are exact in `ℚ`. -/
def weightOf (f : String) : ℚ :=
  if f = "System.Id" then 0.08
  else if f = "System.Title" then 0.3
  else if f = "System.State" then 0.1
  else if f = "System.AssignedTo" then 0.2
  else if f = "System.IterationPath" then 0.12
  else if f = "System.WorkItemType" then 0.1
  else if f = "System.Tags" then 0.1
  else 0.14

/-- Largest element of a list of naturals (`Math.max(...cols)` for a
nonempty list). -/
def listMax (l : List Nat) : Nat := l.foldr max 0

/-- Add one to the first element equal to `m`
(`cols[cols.indexOf(m)] += 1`); an absent `m` leaves the list unchanged,
matching the JavaScript no-op on index `-1` for the empty list. -/
def bumpFirst (m : Nat) : List Nat → List Nat
  | [] => []
  | c :: cs => if c = m then (c + 1) :: cs else c :: bumpFirst m cs

/-- The leftover-distribution loop of `computeColWidths` (part_003 lines
468-474): while leftover width remains, the first widest column grows by
one. -/
def distribute : List Nat → Nat → List Nat
  | cols, 0 => cols
  | cols, k + 1 => distribute (bumpFirst (listMax cols) cols) k

/-- The clamped terminal width `Math.max(process.stdout.columns || 120, 80)`
(part_003 line 451); `stdoutColumns = 0` models an undefined column count. -/
def totalWidthOf (stdoutColumns : Nat) : Nat :=
  max (if stdoutColumns = 0 then 120 else stdoutColumns) 80

/-- The `usable` width of `computeColWidths` (part_003 lines 462-463):
total width minus the per-column padding heuristic, floored at 40. A
negative JavaScript difference is below 40 exactly as the truncated
natural subtraction is. -/
def usableWidth (fields : List String) (stdoutColumns : Nat) : Nat :=
  max (totalWidthOf stdoutColumns - (fields.length * 3 + 1)) 40

/-- The proportional allocation of `computeColWidths` (part_003 lines
464-465): each field receives the floor of its weight share of the usable
width, clamped below at 6. The floating-point weight arithmetic is
modelled exactly in `ℚ`. -/
def rawColWidths (fields : List String) (stdoutColumns : Nat) : List Nat :=
  fields.map (fun f =>
    max 6 (Int.toNat
      ⌊weightOf f / ((fields.map weightOf).sum) * (usableWidth fields stdoutColumns : ℚ)⌋))

/-- `computeColWidths(fields)` from part_003 lines 450-477, with the
ambient `process.stdout.columns` made an explicit argument: proportional
floor allocation clamped below at 6, then distribution of the leftover
width (a negative JavaScript leftover runs the loop zero times, as does
the truncated natural subtraction here). -/
def computeColWidths (fields : List String) (stdoutColumns : Nat) : List Nat :=
  distribute (rawColWidths fields stdoutColumns)
    (usableWidth fields stdoutColumns - (rawColWidths fields stdoutColumns).sum)

/-- Decimal digits of `n`, most significant first, with structural fuel so
that the definition evaluates by kernel reduction. -/
def natDigitsAux : Nat → Nat → List Char
  | 0, _ => []
  | fuel + 1, n =>
    if n < 10 then [Nat.digitChar n]
    else natDigitsAux fuel (n / 10) ++ [Nat.digitChar (n % 10)]

/-- Canonical decimal rendering of a natural number. -/
def natToStr (n : Nat) : String := String.mk (natDigitsAux (n + 1) n)

/-- Canonical decimal rendering of an integer (JavaScript `String(n)`). -/
def intToStr : Int → String
  | .ofNat n => natToStr n
  | .negSucc m => "-" ++ natToStr (m + 1)

/-- Parse a nonempty all-digit character list. -/
def parseDigitsGo (acc : Nat) : List Char → Option Nat
  | [] => some acc
  | c :: cs => if c.isDigit then parseDigitsGo (acc * 10 + (c.toNat - 48)) cs else none

/-- JavaScript `Number(choice)` restricted to integer-form strings: an
optional minus sign followed by one or more digits. Strings `Number` maps
to a non-integer, `NaN` or `0` via the empty string never survive the
`String(asNum) === String(choice)` canonicity guard with an integer, so
`none` here lands in the same `return choice` branch as in the source. -/
def jsNumberInt? (s : String) : Option Int :=
  match s.data with
  | '-' :: c :: cs => (parseDigitsGo 0 (c :: cs)).map (fun n => -(n : Int))
  | c :: cs => (parseDigitsGo 0 (c :: cs)).map (fun n => (n : Int))
  | [] => none

/-- `resolveFieldChoice(choice, fieldsToDisplay)` from part_003 lines
344-355 for the string choices the prompt produces: a choice that prints
back to itself as an integer selects the 1-based column of that ordinal
(out-of-range reads are `none`, like the JavaScript `undefined`); anything
else, field names included, is returned as-is. -/
def resolveFieldChoice (choice : String) (fields : List String) : Option String :=
  match jsNumberInt? choice with
  | some n =>
    if intToStr n = choice then
      if 1 ≤ n then fields.get? (n.toNat - 1) else none
    else some choice
  | none => some choice

/-- The mutable state of `runInteractiveFilter` (part_003 lines 358-360):
the active field, the active compiled pattern, and the currently displayed
filtered view. -/
structure LoopState where
  activeField : Option String
  activeRegex : Option (String → Bool)
  filtered : List WorkItem

/-- One user response to the column prompt of `runInteractiveFilter`:
exit, "Show all (no filter)", or a column choice followed by a validated
pattern. -/
inductive LoopEvent where
  | exit : LoopEvent
  | showAll : LoopEvent
  | select (choice : String) (p : String → Bool) : LoopEvent

/-- One iteration of the `runInteractiveFilter` loop body (part_003 lines
385-422) as a state transition; `none` means the loop broke. The original
unfiltered `tasks` list is a captured constant of the loop. -/
def interactiveStep (tasks : List WorkItem) (fields : List String)
    (_s : LoopState) : LoopEvent → Option LoopState
  | .exit => none
  | .showAll => some ⟨none, none, tasks⟩
  | .select choice p =>
    match resolveFieldChoice choice fields with
    | none => some ⟨none, none, tasks⟩
    | some f =>
      if f = "" then some ⟨none, none, tasks⟩
      else some ⟨some f, some p, filterByField tasks (some f) (some p)⟩

/-- The `createdBy` object of a pull request row in pr-interactive. -/
structure CreatedBy where
  displayName : Option String
deriving DecidableEq, Repr

/-- A pull request row as filtered by `mainMenu` in pr-interactive. -/
structure PRRow where
  createdBy : Option CreatedBy
deriving DecidableEq, Repr

/-- The string `regex.test(pr.createdBy?.displayName)` coerces its argument
to: a missing author or name is the literal string `"undefined"`. -/
def createdByName (pr : PRRow) : String :=
  match pr.createdBy with
  | some c =>
    match c.displayName with
    | some s => s
    | none => "undefined"
  | none => "undefined"

/-- Case "2" (Filter by Created By) of `mainMenu` in pr-interactive.js
lines 61-72: `prs = prs.filter(pr => new RegExp(pattern, "i").test(...))` —
the new list is computed from the *current* `prs` binding and replaces it,
so successive filters compose. -/
def mainMenuFilterCreatedBy (prs : List PRRow) (p : String → Bool) : List PRRow :=
  prs.filter (fun pr => p (createdByName pr))

/-- Modelled from the spec: §4.2 rule 4 for a multi-value tag field —
split on its delimiter, trim each segment, rejoin with comma-space. -/
def specTagNormalize (s : String) : String :=
  jsJoin ", " ((jsSplitChar s ';').map jsTrim)

/-- Modelled from the spec: §4.2 rule 2 for a person field — the
display-name sub-property, falling back to the secondary identifier, then
the contact address, then `"-"`, each fallback taken only when the previous
sub-property is absent. -/
def specPersonNormalize : Option String → Option String → Option String → String
  | some d, _, _ => d
  | none, some u, _ => u
  | none, none, some m => m
  | none, none, none => "-"

/-- Claim C6: filtering with a null (or empty) field and null pattern is
the identity on the record list (and an empty field clears filtering even
with a pattern present). -/
theorem filterByField_null_identity (tasks : List WorkItem) (p : String → Bool) :
    filterByField tasks none none = tasks ∧
    filterByField tasks (some "") none = tasks ∧
    filterByField tasks (some "") (some p) = tasks := by
  refine ⟨rfl, rfl, ?_⟩
  simp [filterByField]

/-- Claim C5: applying the same (field, pattern) filter to its own output
changes nothing — `filterByField` is idempotent on every nonempty record
list and valid filter. -/
theorem filterByField_idempotent (tasks : List WorkItem) (f : String)
    (p : String → Bool) (_hne : tasks ≠ []) :
    filterByField (filterByField tasks (some f) (some p)) (some f) (some p)
      = filterByField tasks (some f) (some p) := by
  by_cases hf : f = ""
  · simp [filterByField, hf]
  · simp [filterByField, hf, List.filter_filter]

/-- Witness for C5 at a concrete one-record list and filter. -/
theorem filterByField_idempotent_witness :
    (([⟨1, [("System.Title", .vstr "Fix bug")]⟩] : List WorkItem) ≠ []) ∧
    filterByField
        (filterByField [⟨1, [("System.Title", .vstr "Fix bug")]⟩]
          (some "System.Title") (some (ciTest "fix")))
        (some "System.Title") (some (ciTest "fix"))
      = filterByField [⟨1, [("System.Title", .vstr "Fix bug")]⟩]
          (some "System.Title") (some (ciTest "fix")) :=
  ⟨by decide, filterByField_idempotent _ _ _ (by decide)⟩

/-- Claim C1 (amended): for a nonempty field name and a compiled pattern,
the filter returns exactly the records whose *stored* (fetch-normalized)
string value of the field matches, as a sublist of the input — original
relative order is preserved. Display formatting is not applied first; see
the counterexample. -/
theorem filterByField_matches_stored (tasks : List WorkItem) (f : String)
    (p : String → Bool) (hf : f ≠ "") :
    (filterByField tasks (some f) (some p)).Sublist tasks ∧
    ∀ t, t ∈ filterByField tasks (some f) (some p) ↔
      t ∈ tasks ∧ p (filterString f t) = true := by
  have h : filterByField tasks (some f) (some p)
      = tasks.filter (fun t => p (filterString f t)) := by
    simp [filterByField, hf]
  rw [h]
  exact ⟨List.filter_sublist _, fun t => List.mem_filter⟩

/-- Witness for C1's amended theorem at a concrete record list. -/
theorem filterByField_matches_stored_witness :
    ("System.Title" ≠ "") ∧
    ((filterByField [⟨1, [("System.Title", .vstr "Fix parser")]⟩]
        (some "System.Title") (some (ciTest "fix"))).Sublist
        [⟨1, [("System.Title", .vstr "Fix parser")]⟩] ∧
      ∀ t, t ∈ filterByField [⟨1, [("System.Title", .vstr "Fix parser")]⟩]
          (some "System.Title") (some (ciTest "fix")) ↔
        t ∈ [(⟨1, [("System.Title", .vstr "Fix parser")]⟩ : WorkItem)] ∧
          ciTest "fix" (filterString "System.Title" t) = true) :=
  ⟨by decide, filterByField_matches_stored _ _ _ (by decide)⟩

/-- Counterexample for C1 as stated: on an iteration-path field the filter
matches the stored value, not the rendered display string. The pattern
"proj" (case-insensitive substring) keeps the record whose stored value is
"Proj\Sprint 1" even though the renderer shows only "Sprint 1", which does
not match. -/
theorem filterByField_not_display_counterexample :
    filterByField [⟨7, [("System.IterationPath", .vstr "Proj\\Sprint 1")]⟩]
        (some "System.IterationPath") (some (ciTest "proj"))
      ≠ specFilterByDisplay [⟨7, [("System.IterationPath", .vstr "Proj\\Sprint 1")]⟩]
          "System.IterationPath" (ciTest "proj") ∧
    filterByField [⟨7, [("System.IterationPath", .vstr "Proj\\Sprint 1")]⟩]
        (some "System.IterationPath") (some (ciTest "proj"))
      = [⟨7, [("System.IterationPath", .vstr "Proj\\Sprint 1")]⟩] ∧
    specFilterByDisplay [⟨7, [("System.IterationPath", .vstr "Proj\\Sprint 1")]⟩]
        "System.IterationPath" (ciTest "proj") = [] := by decide

/-- Claim C4 (amended): a string-valued tag field is split on its
delimiter, rejoined with comma-space, and the rejoined string is trimmed
as a whole — individual segments are not trimmed. -/
theorem formatField_tags_whole_trim (s : String) :
    formatField "System.Tags" (.vstr s) = jsTrim (jsJoin ", " (jsSplitChar s ';')) ∧
    formatField "System.Tags" (.vstr "ui;backend") = "ui, backend" := by
  constructor
  · by_cases hs : s = "-"
    · subst hs; decide
    · simp [formatField, hs]
  · decide

/-- Counterexample for C4 as stated: on the raw value "a ; b" the code
produces "a ,  b" (inner whitespace kept, only the ends trimmed), while
trimming each segment before rejoining would produce "a, b". -/
theorem formatField_tags_trim_counterexample :
    formatField "System.Tags" (.vstr "a ; b") ≠ specTagNormalize "a ; b" ∧
    formatField "System.Tags" (.vstr "a ; b") = "a ,  b" ∧
    specTagNormalize "a ; b" = "a, b" := by decide

/-- Claim C8 (amended): normalizing null yields the placeholder for every
field; a person object yields its display name with fallbacks taken
whenever the previous sub-property is absent *or empty* (JavaScript
falsiness); when no sub-property is a present-but-empty string this
coincides with the spec's absent-only fallback chain. -/
theorem normalizeFieldValue_person (f : String) (d u m : Option String) :
    normalizeFieldValue f .vnull = .vstr "-" ∧
    normalizeFieldValue "System.AssignedTo" (.vobj (some "Jane Doe") none none)
      = .vstr "Jane Doe" ∧
    normalizeFieldValue "System.AssignedTo" (.vobj d u m)
      = .vstr (jsOrFalsyStr d (jsOrFalsyStr u (jsOrFalsyStr m "-"))) ∧
    (d ≠ some "" → u ≠ some "" → m ≠ some "" →
      normalizeFieldValue "System.AssignedTo" (.vobj d u m)
        = .vstr (specPersonNormalize d u m)) := by
  refine ⟨rfl, by decide, rfl, ?_⟩
  intro hd hu hm
  cases d with
  | some sd =>
    have : sd ≠ "" := fun h => hd (by rw [h])
    simp [normalizeFieldValue, jsOrFalsyStr, specPersonNormalize, this]
  | none =>
    cases u with
    | some su =>
      have : su ≠ "" := fun h => hu (by rw [h])
      simp [normalizeFieldValue, jsOrFalsyStr, specPersonNormalize, this]
    | none =>
      cases m with
      | some sm =>
        have : sm ≠ "" := fun h => hm (by rw [h])
        simp [normalizeFieldValue, jsOrFalsyStr, specPersonNormalize, this]
      | none => decide

/-- Witness for C8's amended theorem at a concrete person object. -/
theorem normalizeFieldValue_person_witness :
    normalizeFieldValue "System.AssignedTo"
        (.vobj none (some "j.doe@example.com") none)
      = .vstr (specPersonNormalize none (some "j.doe@example.com") none) :=
  ((normalizeFieldValue_person "System.Id" none (some "j.doe@example.com") none).2.2.2)
    (by decide) (by decide) (by decide)

/-- Counterexample for C8 as stated: a present-but-empty display name
falls through to the secondary identifier in the code, while a fallback
taken only on absence would keep the empty display name. -/
theorem normalizeFieldValue_person_counterexample :
    normalizeFieldValue "System.AssignedTo" (.vobj (some "") (some "Jane Doe") none)
      ≠ .vstr (specPersonNormalize (some "") (some "Jane Doe") none) ∧
    normalizeFieldValue "System.AssignedTo" (.vobj (some "") (some "Jane Doe") none)
      = .vstr "Jane Doe" ∧
    specPersonNormalize (some "") (some "Jane Doe") none = "" := by decide

/-- Claim C3 (amended): in the board-tasks interactive loop a newly
selected (field, pattern) filter is computed from the captured original
record list — the resulting state does not depend on the current filtered
view — and "Show all" restores the original list; the pr-interactive menu,
by contrast, composes filters (see the counterexample). -/
theorem interactiveStep_uses_original (tasks : List WorkItem)
    (fields : List String) (s1 s2 : LoopState) (choice : String)
    (p : String → Bool) (f : String)
    (hres : resolveFieldChoice choice fields = some f) (hf : f ≠ "") :
    interactiveStep tasks fields s1 (.select choice p)
        = some ⟨some f, some p, filterByField tasks (some f) (some p)⟩ ∧
    interactiveStep tasks fields s1 (.select choice p)
        = interactiveStep tasks fields s2 (.select choice p) ∧
    interactiveStep tasks fields s1 .showAll = some ⟨none, none, tasks⟩ := by
  refine ⟨?_, ?_, rfl⟩ <;> simp [interactiveStep, hres, hf]

/-- Witness for C3's amended theorem at a concrete loop state. -/
theorem interactiveStep_uses_original_witness :
    (resolveFieldChoice "System.Title" ["System.Title"] = some "System.Title") ∧
    ("System.Title" ≠ "") ∧
    (interactiveStep [] ["System.Title"] ⟨none, none, []⟩
        (.select "System.Title" (ciTest "fix"))
        = some ⟨some "System.Title", some (ciTest "fix"),
            filterByField [] (some "System.Title") (some (ciTest "fix"))⟩ ∧
      interactiveStep [] ["System.Title"] ⟨none, none, []⟩
          (.select "System.Title" (ciTest "fix"))
        = interactiveStep [] ["System.Title"] ⟨some "System.Title", none, []⟩
            (.select "System.Title" (ciTest "fix")) ∧
      interactiveStep [] ["System.Title"] ⟨none, none, []⟩ .showAll
        = some ⟨none, none, []⟩) :=
  ⟨by decide, by decide,
    interactiveStep_uses_original [] ["System.Title"] ⟨none, none, []⟩
      ⟨some "System.Title", none, []⟩ "System.Title" (ciTest "fix")
      "System.Title" (by decide) (by decide)⟩

/-- Counterexample for C3 as stated: in pr-interactive's menu, filtering
by "alice" and then by "bob" yields the empty list because the second
filter runs on the already-filtered view, while applying the second filter
to the original list would keep bob's pull request. -/
theorem mainMenu_filter_composes_counterexample :
    mainMenuFilterCreatedBy
        (mainMenuFilterCreatedBy [⟨some ⟨some "alice"⟩⟩, ⟨some ⟨some "bob"⟩⟩]
          (ciTest "alice"))
        (ciTest "bob")
      ≠ mainMenuFilterCreatedBy [⟨some ⟨some "alice"⟩⟩, ⟨some ⟨some "bob"⟩⟩]
          (ciTest "bob") ∧
    mainMenuFilterCreatedBy
        (mainMenuFilterCreatedBy [⟨some ⟨some "alice"⟩⟩, ⟨some ⟨some "bob"⟩⟩]
          (ciTest "alice"))
        (ciTest "bob") = [] ∧
    mainMenuFilterCreatedBy [⟨some ⟨some "alice"⟩⟩, ⟨some ⟨some "bob"⟩⟩]
        (ciTest "bob") = [⟨some ⟨some "bob"⟩⟩] := by decide

/-- Claim C10: the approval status is "Rejected" exactly when some numeric
vote is negative, "Approved" exactly when no numeric vote is negative and
some numeric vote is at least 5, and "Pending" exactly otherwise (in
particular with no reviewers or no numeric votes). -/
theorem getApprovalStatus_characterization (pr : PullReq) :
    (getApprovalStatus pr = "Rejected" ↔ ∃ v ∈ prVotes pr, v < 0) ∧
    (getApprovalStatus pr = "Approved" ↔
      (¬ ∃ v ∈ prVotes pr, v < 0) ∧ ∃ v ∈ prVotes pr, 5 ≤ v) ∧
    (getApprovalStatus pr = "Pending" ↔
      (¬ ∃ v ∈ prVotes pr, v < 0) ∧ ¬ ∃ v ∈ prVotes pr, 5 ≤ v) := by
  have hA : ((prVotes pr).any (fun v => v < 0) = true) ↔ ∃ v ∈ prVotes pr, v < 0 := by
    simp [List.any_eq_true]
  have hB : ((prVotes pr).any (fun v => v ≥ 5) = true) ↔ ∃ v ∈ prVotes pr, 5 ≤ v := by
    simp [List.any_eq_true, ge_iff_le]
  rcases h1 : (prVotes pr).any (fun v => v < 0) with _ | _ <;>
    rcases h2 : (prVotes pr).any (fun v => v ≥ 5) with _ | _ <;>
      simp [getApprovalStatus, h1, h2, ← hA, ← hB]

/-- Tokens produced by the whitespace splitter contain no whitespace
characters (given a whitespace-free accumulator). -/
theorem splitWSGo_noWS (cs : List Char) :
    ∀ (sk : Bool) (acc : List Char),
      acc.all (fun c => !c.isWhitespace) = true →
      ∀ s ∈ splitWSGo sk cs acc,
        s.data.all (fun c => !c.isWhitespace) = true := by
  induction cs with
  | nil =>
    intro sk acc hacc s hs
    simp [splitWSGo] at hs
    subst hs
    simpa using hacc
  | cons c cs ih =>
    intro sk acc hacc s hs
    by_cases hw : c.isWhitespace
    · cases sk with
      | true =>
        simp [splitWSGo, hw] at hs
        exact ih true [] (by simp) s hs
      | false =>
        simp [splitWSGo, hw] at hs
        rcases hs with hs | hs
        · subst hs; simpa using hacc
        · exact ih true [] (by simp) s hs
    · simp [splitWSGo, hw] at hs
      exact ih false (c :: acc) (by simp [hacc, hw]) s hs

/-- Invariant of the greedy wrap loop: if every incoming word is
whitespace-free and every line so far (and the current line) either fits
in `width` or is a single whitespace-free word, the same holds of every
produced line. -/
theorem wrapLoop_all_good (width : Nat) (words : List String) :
    ∀ (lines : List String) (current : String),
      words.all (fun s2 => s2.data.all (fun c => !c.isWhitespace)) = true →
      lines.all
        (fun l => decide (l.length ≤ width) || l.data.all (fun c => !c.isWhitespace))
        = true →
      (decide (current.length ≤ width) ||
        current.data.all (fun c => !c.isWhitespace)) = true →
      (wrapLoop width lines current words).all
        (fun l => decide (l.length ≤ width) || l.data.all (fun c => !c.isWhitespace))
        = true := by
  induction words with
  | nil =>
    intro lines current hw hl hc
    rw [wrapLoop]
    split
    · exact hl
    · simp only [List.all_append, hl, Bool.true_and, List.all_cons, List.all_nil,
        Bool.and_true]
      exact hc
  | cons word rest ih =>
    intro lines current hw hl hc
    simp only [List.all_cons, Bool.and_eq_true] at hw
    obtain ⟨hword, hrest⟩ := hw
    have hflush : (if current = "" then lines else lines ++ [current]).all
        (fun l => decide (l.length ≤ width) || l.data.all (fun c => !c.isWhitespace))
        = true := by
      split
      · exact hl
      · simp only [List.all_append, hl, Bool.true_and, List.all_cons, List.all_nil,
          Bool.and_true]
        exact hc
    rw [wrapLoop]
    split
    · rename_i hpos
      split
      · exact ih _ _ hrest hflush (by rw [Bool.or_eq_true]; exact Or.inr hword)
      · rename_i hov
        have hcur : ¬ current = "" := by
          intro h
          subst h
          simp at hpos
        rw [if_neg hcur]
        have hsp : (" " : String).length = 1 := rfl
        have hlen : (current ++ " " ++ word).length
            = current.length + 1 + word.length := by
          rw [String.length_append, String.length_append, hsp]
        have hle : (current ++ " " ++ word).length ≤ width := by
          rw [hlen]; omega
        exact ih _ _ hrest hl (by rw [Bool.or_eq_true]; exact Or.inl (decide_eq_true hle))
    · rename_i hpos
      split
      · exact ih _ _ hrest hflush (by rw [Bool.or_eq_true]; exact Or.inr hword)
      · have hcur : current = "" := by
          have hlen0 : current.length = 0 := by omega
          have hz : current.data.length = 0 := hlen0
          exact String.ext (List.length_eq_zero.mp hz)
        rw [if_pos hcur]
        exact ih _ _ hrest hl (by rw [Bool.or_eq_true]; exact Or.inr hword)

/-- Claim C7: greedy word wrap — the empty string renders as the
placeholder for every width, the concrete example wraps as specified, and
every produced line either fits in the width or is a single
whitespace-free word placed alone on an overflowing line (words are never
split). -/
theorem wrapText_greedy (w : Nat) (text : String) (width : Nat) :
    wrapText "" w = "-" ∧
    wrapText "hello world" 5 = "hello\nworld" ∧
    (wrapLines text width).all
      (fun l => decide (l.length ≤ width) || l.data.all (fun c => !c.isWhitespace))
      = true := by
  refine ⟨rfl, by decide, ?_⟩
  apply wrapLoop_all_good
  · rw [List.all_eq_true]
    intro s hs
    exact splitWSGo_noWS text.data false [] (by simp) s hs
  · simp
  · simp

/-- A chunking run seeded with a nonempty current slice never returns an
empty chunk list. -/
theorem chunkGo_ne_nil (width : Nat) (cs : List Char) :
    ∀ cur k, cur ≠ [] → chunkGo width cs cur k ≠ [] := by
  induction cs with
  | nil => intro cur k h; simp [chunkGo, h]
  | cons c cs ih =>
    intro cur k h
    cases k with
    | zero => simp [chunkGo]
    | succ k2 => exact ih _ _ (by simp)

/-- Concatenating the chunks restores the pending slice plus the remaining
characters. -/
theorem chunkGo_join (width : Nat) (cs : List Char) :
    ∀ cur k, (chunkGo width cs cur k).flatten = cur.reverse ++ cs := by
  induction cs with
  | nil => intro cur k; by_cases h : cur = [] <;> simp [chunkGo, h]
  | cons c cs ih =>
    intro cur k
    cases k with
    | zero => simp [chunkGo, ih]
    | succ k2 => simp [chunkGo, ih]

/-- Every chunk is nonempty and no longer than the width (for positive
width, with the capacity invariant of the loop). -/
theorem chunkGo_sizes (width : Nat) (hw : 0 < width) (cs : List Char) :
    ∀ cur k, cur.length + k = width →
      ∀ p ∈ chunkGo width cs cur k, p ≠ [] ∧ p.length ≤ width := by
  induction cs with
  | nil =>
    intro cur k hinv p hp
    by_cases h : cur = []
    · simp [chunkGo, h] at hp
    · simp [chunkGo, h] at hp
      subst hp
      constructor
      · simpa using h
      · simp; omega
  | cons c cs ih =>
    intro cur k hinv p hp
    cases k with
    | zero =>
      simp only [chunkGo, List.mem_cons] at hp
      rcases hp with hp | hp
      · subst hp
        constructor
        · have : cur.length = width := by omega
          intro hnil
          rw [List.reverse_eq_nil_iff] at hnil
          subst hnil
          simp at this
          omega
        · simp; omega
      · exact ih [c] (width - 1) (by simp; omega) p hp
    | succ k2 =>
      exact ih (c :: cur) k2 (by simp; omega) p hp

/-- Every chunk except possibly the last has length exactly the width. -/
theorem chunkGo_dropLast (width : Nat) (hw : 0 < width) (cs : List Char) :
    ∀ cur k, cur.length + k = width →
      ∀ p ∈ (chunkGo width cs cur k).dropLast, p.length = width := by
  induction cs with
  | nil =>
    intro cur k hinv p hp
    by_cases h : cur = [] <;> simp [chunkGo, h] at hp
  | cons c cs ih =>
    intro cur k hinv
    cases k with
    | zero =>
      have hrest : chunkGo width cs [c] (width - 1) ≠ [] :=
        chunkGo_ne_nil width cs [c] (width - 1) (by simp)
      intro p hp
      simp only [chunkGo] at hp
      rcases hq : chunkGo width cs [c] (width - 1) with _ | ⟨r, rs⟩
      · exact absurd hq hrest
      · rw [hq] at hp
        simp only [List.dropLast_cons₂, List.mem_cons] at hp
        rcases hp with hp | hp
        · subst hp; simp; omega
        · rw [← hq] at hp
          have hcap : (1:Nat) ≤ width := by omega
          exact ih [c] (width - 1) (by simp; omega) p hp
    | succ k2 =>
      intro p hp
      exact ih (c :: cur) k2 (by simp; omega) p hp

/-- Claim C9 (amended): after the branch name is stripped of its first
occurrence of the refs-heads prefix, the slicing loop cuts the remaining
characters into consecutive nonempty slices whose concatenation is the
input, each at most the width and all but the last exactly the width,
joined with newlines; the concrete example holds verbatim. -/
theorem formatBranch_fixed_slices (w : Nat) (cs : List Char) :
    (chunkGo (w + 1) cs [] (w + 1)).flatten = cs ∧
    ((chunkGo (w + 1) cs [] (w + 1)).all
      (fun p => decide (p ≠ []) && decide (p.length ≤ w + 1)) = true) ∧
    ((chunkGo (w + 1) cs [] (w + 1)).dropLast.all
      (fun p => decide (p.length = w + 1)) = true) ∧
    formatBranch "abcdefgh" 3 = "abc\ndef\ngh" := by
  refine ⟨?_, ?_, ?_, by decide⟩
  · simpa using chunkGo_join (w + 1) cs [] (w + 1)
  · rw [List.all_eq_true]
    intro p hp
    have := chunkGo_sizes (w + 1) (by omega) cs [] (w + 1) (by simp) p hp
    simp [this.1, this.2]
  · rw [List.all_eq_true]
    intro p hp
    have := chunkGo_dropLast (w + 1) (by omega) cs [] (w + 1) (by simp) p hp
    simp [this]

/-- Counterexample for C9 as stated: `formatBranch` first strips the
refs-heads prefix, so its output is not the fixed-width slicing of its
raw input. -/
theorem formatBranch_strips_counterexample :
    formatBranch "refs/heads/x" 3 ≠ "ref\ns/h\nead\ns/x" ∧
    formatBranch "refs/heads/x" 3 = "x" := by decide

/-- Bumping one column keeps the column count. -/
theorem bumpFirst_length (m : Nat) (l : List Nat) :
    (bumpFirst m l).length = l.length := by
  induction l with
  | nil => rfl
  | cons c cs ih =>
    rw [bumpFirst]
    split <;> simp [ih]

/-- Bumping one column preserves a uniform lower bound. -/
theorem bumpFirst_lower (m b : Nat) (l : List Nat) (h : ∀ x ∈ l, b ≤ x) :
    ∀ x ∈ bumpFirst m l, b ≤ x := by
  induction l with
  | nil => simp [bumpFirst]
  | cons c cs ih =>
    intro x hx
    rw [bumpFirst] at hx
    split at hx
    · rcases List.mem_cons.mp hx with hx | hx
      · have := h c (by simp)
        omega
      · exact h x (List.mem_cons_of_mem _ hx)
    · rcases List.mem_cons.mp hx with hx | hx
      · subst hx; exact h x (by simp)
      · exact ih (fun y hy => h y (List.mem_cons_of_mem _ hy)) x hx

/-- Bumping an element that occurs in the list adds exactly one to the
total. -/
theorem bumpFirst_sum_mem (m : Nat) (l : List Nat) (h : m ∈ l) :
    (bumpFirst m l).sum = l.sum + 1 := by
  induction l with
  | nil => simp at h
  | cons c cs ih =>
    rw [bumpFirst]
    split
    · simp; omega
    · rename_i hc
      have hm : m ∈ cs := by
        rcases List.mem_cons.mp h with h1 | h1
        · exact absurd h1.symm hc
        · exact h1
      simp [ih hm]
      omega

/-- The maximum of a nonempty list of naturals is attained. -/
theorem listMax_mem (l : List Nat) (h : l ≠ []) : listMax l ∈ l := by
  induction l with
  | nil => exact absurd rfl h
  | cons c cs ih =>
    have hstep : listMax (c :: cs) = max c (listMax cs) := rfl
    by_cases hcs : cs = []
    · subst hcs
      have hone : listMax [c] = c := by simp [listMax]
      rw [hone]
      exact List.mem_cons_self _ _
    · rcases le_total (listMax cs) c with hle | hle
      · rw [hstep, max_eq_left hle]
        exact List.mem_cons_self _ _
      · rw [hstep, max_eq_right hle]
        exact List.mem_cons_of_mem _ (ih hcs)

/-- Distribution keeps the column count. -/
theorem distribute_length (l : List Nat) (k : Nat) :
    (distribute l k).length = l.length := by
  induction k generalizing l with
  | zero => rfl
  | succ k2 ih => rw [distribute, ih, bumpFirst_length]

/-- Distribution preserves a uniform lower bound. -/
theorem distribute_lower (b : Nat) (l : List Nat) (k : Nat)
    (h : ∀ x ∈ l, b ≤ x) : ∀ x ∈ distribute l k, b ≤ x := by
  induction k generalizing l with
  | zero => exact h
  | succ k2 ih => exact ih _ (bumpFirst_lower _ _ _ h)

/-- Distributing over no columns at all is a no-op (the JavaScript loop
decrements its counter while writing to index `-1`). -/
theorem distribute_nil (k : Nat) : distribute [] k = [] := by
  induction k with
  | zero => rfl
  | succ k2 ih => rw [distribute]; exact ih

/-- Distributing `k` leftover units over a nonempty column list adds
exactly `k` to the total. -/
theorem distribute_sum (l : List Nat) (k : Nat) (h : l ≠ []) :
    (distribute l k).sum = l.sum + k := by
  induction k generalizing l with
  | zero => rfl
  | succ k2 ih =>
    rw [distribute]
    have hb : bumpFirst (listMax l) l ≠ [] := by
      intro hnil
      have := bumpFirst_length (listMax l) l
      rw [hnil] at this
      exact h (List.length_eq_zero.mp this.symm)
    rw [ih _ hb, bumpFirst_sum_mem _ _ (listMax_mem l h)]
    omega

/-- Every registered or default weight is positive. -/
theorem weightOf_pos (f : String) : 0 < weightOf f := by
  rw [weightOf]
  split_ifs <;> norm_num

/-- Factoring a constant out of a mapped sum. -/
theorem list_sum_map_mul (l : List String) (g : String → ℚ) (c : ℚ) :
    (l.map (fun f => g f * c)).sum = (l.map g).sum * c := by
  induction l with
  | nil => simp
  | cons a t ih => simp [ih, add_mul]

/-- Splitting a mapped sum of pointwise sums. -/
theorem list_sum_map_add (l : List String) (g h : String → Nat) :
    (l.map (fun f => g f + h f)).sum = (l.map g).sum + (l.map h).sum := by
  induction l with
  | nil => simp
  | cons a t ih => simp [ih]; omega

/-- Summing a constant map counts the list length. -/
theorem list_sum_map_const (l : List String) (b : Nat) :
    (l.map (fun _ => b)).sum = b * l.length := by
  induction l with
  | nil => simp
  | cons a t ih => simp [ih, Nat.mul_succ, Nat.mul_comm]; omega

/-- Casting a mapped natural sum into the rationals. -/
theorem list_sum_map_cast (l : List String) (g : String → Nat) :
    (((l.map g).sum : Nat) : ℚ) = (l.map (fun f => (g f : ℚ))).sum := by
  induction l with
  | nil => simp
  | cons a t ih => simp [ih]

/-- The raw floor-and-clamp allocation never exceeds six per column plus
the usable width in total: every floor share is bounded by its exact
rational share, and the shares sum to exactly the usable width. -/
theorem rawColWidths_sum_le (fields : List String) (c : Nat)
    (hne : fields ≠ []) :
    (rawColWidths fields c).sum ≤ 6 * fields.length + usableWidth fields c := by
  have hSpos : 0 < (fields.map weightOf).sum := by
    apply List.sum_pos
    · intro x hx
      rcases List.mem_map.mp hx with ⟨f, _, rfl⟩
      exact weightOf_pos f
    · simpa using hne
  set S : ℚ := (fields.map weightOf).sum with hS
  set u : Nat := usableWidth fields c with hu
  have hshare_nonneg : ∀ f : String, (0:ℚ) ≤ weightOf f / S * (u:ℚ) := by
    intro f
    have h1 : (0:ℚ) ≤ weightOf f / S := le_of_lt (div_pos (weightOf_pos f) hSpos)
    exact mul_nonneg h1 (by positivity)
  have hfloor_le : ∀ f : String,
      ((Int.toNat ⌊weightOf f / S * (u:ℚ)⌋ : Nat) : ℚ) ≤ weightOf f / S * (u:ℚ) := by
    intro f
    have h0 : (0:ℤ) ≤ ⌊weightOf f / S * (u:ℚ)⌋ := Int.floor_nonneg.mpr (hshare_nonneg f)
    have : ((⌊weightOf f / S * (u:ℚ)⌋.toNat : ℤ) : ℚ) ≤ weightOf f / S * (u:ℚ) := by
      rw [Int.toNat_of_nonneg h0]
      exact Int.floor_le _
    exact_mod_cast this
  have hshares_sum : (fields.map (fun f => weightOf f / S * (u:ℚ))).sum = (u:ℚ) := by
    have hrw : (fields.map (fun f => weightOf f / S * (u:ℚ)))
        = fields.map (fun f => weightOf f * ((u:ℚ) / S)) := by
      apply List.map_congr_left
      intro f _
      rw [div_mul_eq_mul_div, mul_div_assoc]
    rw [hrw, list_sum_map_mul, ← hS, mul_comm, div_mul_cancel₀]
    exact ne_of_gt hSpos
  have hfloors_sum : ((fields.map (fun f =>
      Int.toNat ⌊weightOf f / S * (u:ℚ)⌋)).sum : ℚ) ≤ (u:ℚ) := by
    rw [list_sum_map_cast]
    calc (fields.map (fun f => ((Int.toNat ⌊weightOf f / S * (u:ℚ)⌋ : Nat) : ℚ))).sum
        ≤ (fields.map (fun f => weightOf f / S * (u:ℚ))).sum :=
          List.sum_le_sum (fun f _ => hfloor_le f)
      _ = (u:ℚ) := hshares_sum
  have hfloors_sum_nat : (fields.map (fun f =>
      Int.toNat ⌊weightOf f / S * (u:ℚ)⌋)).sum ≤ u := by exact_mod_cast hfloors_sum
  have hpointwise : ∀ f ∈ fields,
      max 6 (Int.toNat ⌊weightOf f / S * (u:ℚ)⌋)
        ≤ 6 + Int.toNat ⌊weightOf f / S * (u:ℚ)⌋ := by
    intro f _
    omega
  calc (rawColWidths fields c).sum
      ≤ (fields.map (fun f => 6 + Int.toNat ⌊weightOf f / S * (u:ℚ)⌋)).sum := by
        rw [rawColWidths]
        exact List.sum_le_sum hpointwise
    _ = (fields.map (fun _ => 6)).sum
          + (fields.map (fun f => Int.toNat ⌊weightOf f / S * (u:ℚ)⌋)).sum :=
        list_sum_map_add fields _ _
    _ ≤ 6 * fields.length + u := by
        have h6 : (fields.map (fun _ => (6:Nat))).sum = 6 * fields.length :=
          list_sum_map_const fields 6
        omega

/-- Claim C2 (amended): the allocation returns one width per field, every
width is at least the 6-character floor, and the total never exceeds the
clamped terminal width plus six characters per displayed field. The
originally claimed bound (terminal width plus the padding overhead
`3·len + 1`) fails once the 6-character floors dominate; see the
counterexample. -/
theorem computeColWidths_bounds (fields : List String) (c : Nat) :
    (computeColWidths fields c).length = fields.length ∧
    (computeColWidths fields c).all (fun x => decide (6 ≤ x)) = true ∧
    (computeColWidths fields c).sum ≤ totalWidthOf c + 6 * fields.length := by
  have hlower : ∀ x ∈ computeColWidths fields c, 6 ≤ x := by
    apply distribute_lower
    intro x hx
    rcases List.mem_map.mp hx with ⟨f, _, rfl⟩
    exact le_max_left _ _
  by_cases hne : fields = []
  · subst hne
    refine ⟨?_, ?_, ?_⟩ <;> simp [computeColWidths, rawColWidths, distribute_nil]
  · have hcolsne : rawColWidths fields c ≠ [] := by
      intro hnil
      have : (rawColWidths fields c).length = fields.length := by
        simp [rawColWidths]
      rw [hnil] at this
      exact hne (List.length_eq_zero.mp this.symm)
    have husable_le : usableWidth fields c ≤ totalWidthOf c := by
      have h80 : 80 ≤ totalWidthOf c := le_max_right _ _
      have : totalWidthOf c - (fields.length * 3 + 1) ≤ totalWidthOf c :=
        Nat.sub_le _ _
      rw [usableWidth]
      omega
    refine ⟨?_, ?_, ?_⟩
    · rw [computeColWidths, distribute_length]
      simp [rawColWidths]
    · rw [List.all_eq_true]
      intro x hx
      exact decide_eq_true (hlower x hx)
    · rw [computeColWidths, distribute_sum _ _ hcolsne]
      have hraw := rawColWidths_sum_le fields c hne
      rcases le_total ((rawColWidths fields c).sum) (usableWidth fields c) with hcu | hcu
      · have : (rawColWidths fields c).sum
            + (usableWidth fields c - (rawColWidths fields c).sum)
            = usableWidth fields c := by omega
        omega
      · have : usableWidth fields c - (rawColWidths fields c).sum = 0 := by omega
        omega

/-- Counterexample for C2 as stated: with 28 displayed fields on an
80-column terminal every share floors below the clamp, all 28 columns get
the 6-character minimum, and the total 168 exceeds the claimed bound of
the terminal width plus the padding overhead, 80 + (3·28 + 1) = 165. -/
theorem computeColWidths_overhead_counterexample :
    (computeColWidths (List.replicate 28 "F") 80).sum = 168 ∧
    totalWidthOf 80 + (3 * (List.replicate 28 "F").length + 1) = 165 ∧
    ¬ ((computeColWidths (List.replicate 28 "F") 80).sum
        ≤ totalWidthOf 80 + (3 * (List.replicate 28 "F").length + 1)) := by
  have hw : weightOf "F" = 7/50 := by
    rw [weightOf, if_neg (by decide), if_neg (by decide), if_neg (by decide),
      if_neg (by decide), if_neg (by decide), if_neg (by decide), if_neg (by decide)]
    norm_num
  have hu : usableWidth (List.replicate 28 "F") 80 = 40 := by decide
  have hS : ((List.replicate 28 "F").map weightOf).sum = 98/25 := by
    rw [List.map_replicate, hw, List.sum_replicate]
    norm_num
  have hval : max 6 (Int.toNat
      ⌊weightOf "F" / (((List.replicate 28 "F").map weightOf).sum)
        * (usableWidth (List.replicate 28 "F") 80 : ℚ)⌋) = 6 := by
    rw [hw, hS, hu]
    norm_num
  have hcols : rawColWidths (List.replicate 28 "F") 80 = List.replicate 28 6 := by
    rw [rawColWidths]
    rw [List.map_replicate, hval]
  have hsum : (rawColWidths (List.replicate 28 "F") 80).sum = 168 := by
    rw [hcols]
    simp [List.sum_replicate]
  have hmain : (computeColWidths (List.replicate 28 "F") 80).sum = 168 := by
    rw [computeColWidths, hu, hsum, hcols]
    rfl
  refine ⟨hmain, by decide, ?_⟩
  rw [hmain]
  decide

end AzTui
